import Mathlib

/-!
Verification of the luabundler core (dependency scanning and textual
substitution engine) against its specification.

The Rust sources are embedded shallowly:

* text is `List Char` (`Str`);
* the `regex` crate's leftmost-first (preference-order) matching of the
  four concrete patterns used by the program is embedded by a small
  backtracking matcher in continuation-passing style over a pattern AST
  that transcribes the pattern strings literally;
* `PathBuf` is embedded at the string level (`pop` truncates at the last
  separator, `push`/`join` appends a separator and the component text);
* the filesystem is an association list from path text to file text;
* fallible operations return `Option`; the recursion of `parse_file`
  (which the program does not guard against cycles) takes explicit fuel.
-/

set_option maxRecDepth 10000

/-- Text as a list of characters. -/
abbrev Str := List Char

/-- Filesystem model: an association list from path text to file contents. -/
abbrev FS := List (Str × Str)

/-- Reading a file (`tokio::fs::read_to_string` / `read_file`): a lookup. -/
def fsRead (fs : FS) (p : Str) : Option Str := fs.lookup p

/-- `Path::exists`. -/
def fsExists (fs : FS) (p : Str) : Bool := (fsRead fs p).isSome

/-- Whitespace as matched by `\s` in the `regex` crate (ASCII fragment),
which is also `char::is_whitespace` on ASCII (used by `str::trim`). -/
def isWs (c : Char) : Bool :=
  c = ' ' ∨ c = '\t' ∨ c = '\n' ∨ c = '\r' ∨ c = '\x0b' ∨ c = '\x0c'

/-- A quote character, the class `['"]` of the patterns. -/
def isQuote (c : Char) : Bool := c = '\'' ∨ c = '"'

/-- The class `.` of the patterns: any character except a newline. -/
def nonNl (c : Char) : Bool := ¬ c = '\n'

/-- `str::trim`: strip leading and trailing whitespace. -/
def strTrim (s : Str) : Str :=
  ((s.dropWhile (fun c => isWs c)).reverse.dropWhile (fun c => isWs c)).reverse

/-- `str::replace` with a non-empty needle: scan left to right, replacing
each non-overlapping occurrence.  The first argument counts characters of
a just-replaced occurrence still to be skipped, keeping the recursion
structural. -/
def replaceAllGo (m r : Str) : Nat → Str → Str
  | _, [] => []
  | skip + 1, _ :: rest => replaceAllGo m r skip rest
  | 0, c :: rest =>
    if m ≠ [] ∧ m.isPrefixOf (c :: rest) then
      r ++ replaceAllGo m r (m.length - 1) rest
    else
      c :: replaceAllGo m r 0 rest

/-- `str::replace(m, r)`.  An empty needle matches at every position
(including both ends), as `match_indices("")` does in Rust. -/
def replaceAll (s m r : Str) : Str :=
  if m = [] then r ++ s.foldr (fun c acc => c :: (r ++ acc)) []
  else replaceAllGo m r 0 s

/-- `m` occurs in `s` at position `p`. -/
def matchesAt (s m : Str) (p : Nat) : Prop := m.isPrefixOf (s.drop p)

instance (s m : Str) (p : Nat) : Decidable (matchesAt s m p) := by
  unfold matchesAt; infer_instance

/-- `str::lines`: split at `'\n'`, without a trailing empty line for a
final terminator. -/
def strLines (s : Str) : List Str :=
  if s = [] then []
  else
    let parts := s.splitOn '\n'
    if parts.getLast? = some [] then parts.dropLast else parts

/-- Capture environment: group index paired with the captured text.  The
most recent entry for an index wins. -/
abbrev Caps := List (Nat × Str)

def capGet (caps : Caps) (i : Nat) : Option Str :=
  (caps.find? (fun e => e.1 = i)).map (fun e => e.2)

/-- Pattern AST.  Each constructor transcribes one construct that occurs in
the program's four pattern strings.  All repetition in those patterns is
over single-character classes, so the star takes a character class. -/
inductive RE : Type where
  | rchar (p : Char → Bool) : RE
  | rlit (l : Str) : RE
  | rstar (greedy : Bool) (p : Char → Bool) : RE
  | ropt (greedy : Bool) (r : RE) : RE
  | rcat (a b : RE) : RE
  | ralt (a b : RE) : RE
  | rgroup (i : Nat) (r : RE) : RE

/-- Backtracking star: in greedy mode prefer to consume a class character,
in lazy mode prefer the continuation. -/
def matchStar {β : Type} (p : Char → Bool) (greedy : Bool) :
    Str → Caps → (Str → Caps → Option β) → Option β
  | [], caps, k => k [] caps
  | c :: rest, caps, k =>
    if p c then
      if greedy then (matchStar p greedy rest caps k) <|> k (c :: rest) caps
      else k (c :: rest) caps <|> (matchStar p greedy rest caps k)
    else k (c :: rest) caps

/-- Backtracking matcher in continuation-passing style.  Alternatives are
tried in preference order (the `regex` crate's leftmost-first semantics),
and a continuation returning `none` causes backtracking. -/
def matchRE {β : Type} : RE → Str → Caps → (Str → Caps → Option β) → Option β
  | .rchar p, s, caps, k =>
    match s with
    | [] => none
    | c :: rest => if p c then k rest caps else none
  | .rlit l, s, caps, k => if l.isPrefixOf s then k (s.drop l.length) caps else none
  | .rstar g p, s, caps, k => matchStar p g s caps k
  | .ropt g r, s, caps, k =>
    if g then (matchRE r s caps k) <|> k s caps else k s caps <|> (matchRE r s caps k)
  | .rcat a b, s, caps, k => matchRE a s caps (fun s' caps' => matchRE b s' caps' k)
  | .ralt a b, s, caps, k => (matchRE a s caps k) <|> (matchRE b s caps k)
  | .rgroup i r, s, caps, k =>
    matchRE r s caps (fun s' caps' => k s' ((i, s.take (s.length - s'.length)) :: caps'))

/-- Match anchored at the start of `s`; returns matched length and captures. -/
def matchTop (re : RE) (s : Str) : Option (Nat × Caps) :=
  matchRE re s [] (fun s' caps => some (s.length - s'.length, caps))

/-- `Regex::is_match` for a pattern anchored on both sides (`^...$`):
the whole string must be consumed. -/
def fullMatch (re : RE) (s : Str) : Option Caps :=
  matchRE re s [] (fun s' caps => if s' = [] then some caps else none)

/-- `captures_iter`: repeatedly find the leftmost match, then resume after
it (advancing one character over an empty match, as the crate does). -/
def findIterGo (re : RE) : Nat → Str → Nat → List (Nat × Str × Caps)
  | 0, _, _ => []
  | fuel + 1, s, pos =>
    match matchTop re s with
    | some (len, caps) =>
      (pos, s.take len, caps) ::
        (if len = 0 then
          match s with
          | [] => []
          | _ :: rest => findIterGo re fuel rest (pos + 1)
        else findIterGo re fuel (s.drop len) (pos + len))
    | none =>
      match s with
      | [] => []
      | _ :: rest => findIterGo re fuel rest (pos + 1)

def findIter (re : RE) (s : Str) : List (Nat × Str × Caps) :=
  findIterGo re (s.length + 1) s 0

/-! ## The program's patterns

Transcriptions of the pattern strings in `require_parser.rs` (also
textually identical in `bundler.rs`). -/

/-- First recognition pattern,
`['"]?require\s*\(\\*['"](.*?)\\*['"]\s*(?:,\s*(.*?))?\)\s*;?\s*([.(].*)?['"]?` :
`require("module.lua", ...)` optionally with a trailing call suffix. -/
def pReq1 : RE :=
  .rcat (.ropt true (.rchar isQuote))
  (.rcat (.rlit ('r' :: 'e' :: 'q' :: 'u' :: 'i' :: 'r' :: 'e' :: []))
  (.rcat (.rstar true isWs)
  (.rcat (.rchar (fun c => c = '('))
  (.rcat (.rstar true (fun c => c = '\\'))
  (.rcat (.rchar isQuote)
  (.rcat (.rgroup 1 (.rstar false nonNl))
  (.rcat (.rstar true (fun c => c = '\\'))
  (.rcat (.rchar isQuote)
  (.rcat (.rstar true isWs)
  (.rcat (.ropt true
            (.rcat (.rchar (fun c => c = ','))
            (.rcat (.rstar true isWs) (.rgroup 2 (.rstar false nonNl)))))
  (.rcat (.rchar (fun c => c = ')'))
  (.rcat (.rstar true isWs)
  (.rcat (.ropt true (.rchar (fun c => c = ';')))
  (.rcat (.rstar true isWs)
  (.rcat (.ropt true (.rgroup 3 (.rcat (.rchar (fun c => c = '.' ∨ c = '(')) (.rstar true nonNl))))
         (.ropt true (.rchar isQuote)))))))))))))))))

/-- Second recognition pattern,
`['"]?require\s*\\*['"](.*?)\\*['"]\s*;?['"]?` : `require"module.lua"`. -/
def pReq2 : RE :=
  .rcat (.ropt true (.rchar isQuote))
  (.rcat (.rlit ('r' :: 'e' :: 'q' :: 'u' :: 'i' :: 'r' :: 'e' :: []))
  (.rcat (.rstar true isWs)
  (.rcat (.rstar true (fun c => c = '\\'))
  (.rcat (.rchar isQuote)
  (.rcat (.rgroup 1 (.rstar false nonNl))
  (.rcat (.rstar true (fun c => c = '\\'))
  (.rcat (.rchar isQuote)
  (.rcat (.rstar true isWs)
  (.rcat (.ropt true (.rchar (fun c => c = ';')))
         (.ropt true (.rchar isQuote)))))))))))

/-- `IN_STRING_PATTERN`, `^['"](.+)['"]$` (used through `is_match`, so the
anchors make it a full match). -/
def pInString : RE :=
  .rcat (.rchar isQuote)
  (.rcat (.rgroup 1 (.rcat (.rchar nonNl) (.rstar true nonNl)))
         (.rchar isQuote))

/-- `IN_COMMENT_PATTERN`, `--\[=*\[[\s\S]*?\]=*\]|['"]*--\s*.*['"]?`. -/
def pComment : RE :=
  .ralt
    (.rcat (.rlit ('-' :: '-' :: '[' :: []))
    (.rcat (.rstar true (fun c => c = '='))
    (.rcat (.rchar (fun c => c = '['))
    (.rcat (.rstar false (fun _ => true))
    (.rcat (.rchar (fun c => c = ']'))
    (.rcat (.rstar true (fun c => c = '='))
           (.rchar (fun c => c = ']'))))))))
    (.rcat (.rstar true isQuote)
    (.rcat (.rlit ('-' :: '-' :: []))
    (.rcat (.rstar true isWs)
    (.rcat (.rstar true nonNl)
           (.ropt true (.rchar isQuote))))))

/-- `Regex::new(IN_STRING_PATTERN).is_match(s)`. -/
def isStringLit (s : Str) : Bool := (fullMatch pInString s).isSome

namespace RequireParser

/-- `remove_comments` in `require_parser.rs`: for every match of the
comment pattern in the original contents, if the trimmed match is not
itself a quoted string, delete every occurrence of the trimmed match from
the accumulating result. -/
def remove_comments (contents : Str) : Str :=
  (findIter pComment contents).foldl
    (fun cleaned e =>
      let matched := strTrim e.2.1
      if isStringLit matched then cleaned else replaceAll cleaned matched [])
    contents

end RequireParser

namespace Bundler

/-- One step of the character loop of `remove_all_comments` in
`bundler.rs`, carrying the three state booleans; the lookahead
`contents.chars().nth(i + 1)` (`unwrap_or_default` gives `'\0'`) becomes
a lookahead into the tail. -/
def racGo : Bool → Bool → Bool → Str → Str
  | _, _, _, [] => []
  | in_string, in_multiline, in_singleline, c :: rest =>
    let n1 : Char := rest.headD (Char.ofNat 0)
    let n2 : Char := (rest.drop 1).headD (Char.ofNat 0)
    if in_string then
      let in_string' := ¬ (c = '"' ∨ c = '\'')
      c :: racGo in_string' false false rest
    else if in_multiline then
      let in_multiline' := ¬ (c = ']' ∧ n1 = ']')
      if in_multiline' then racGo false true false rest
      else c :: racGo false false false rest
    else if in_singleline then
      if c = '\n' then c :: racGo false false false rest
      else racGo false false true rest
    else
      if c = '"' ∨ c = '\'' then c :: racGo true false false rest
      else if c = '-' then
        if n1 = '-' then racGo false false true rest
        else if n1 = '[' ∧ n2 = '[' then racGo false true false rest
        else c :: racGo false false false rest
      else c :: racGo false false false rest

/-- `remove_all_comments` in `bundler.rs`. -/
def remove_all_comments (contents : Str) : Str := racGo false false false contents

end Bundler

/-! ## Paths and call sites -/

/-- `PathBuf::pop`: truncate the path text at the last separator (a path
with no separator becomes empty). -/
def pbPop (p : Str) : Str :=
  (((p.reverse).dropWhile (fun c => ¬ c = '/')).drop 1).reverse

/-- `PathBuf::push` / `Path::join` for a non-absolute component: append a
separator and the component text. -/
def pbPush (p s : Str) : Str :=
  if p = [] then s else p ++ '/' :: s

/-- A call site, the tuple `(matched, require, args, func_args)` pushed by
`parse_file`. -/
abbrev Site := Str × Str × Str × Str

/-- The body of the inner `captures_iter` loop of `parse_file`: trimmed
full match, trimmed group 1 (always present), trimmed groups 2 and 3 or
empty when absent. -/
def siteOfCaps (e : Nat × Str × Caps) : Site :=
  (strTrim e.2.1,
   strTrim ((capGet e.2.2 1).getD []),
   strTrim ((capGet e.2.2 2).getD []),
   strTrim ((capGet e.2.2 3).getD []))

/-- The scanning stage of `parse_file` on one already-stripped buffer: the
sites of the first pattern, then the sites of the second. -/
def scanSites (contents : Str) : List Site :=
  (findIter pReq1 contents).map siteOfCaps ++ (findIter pReq2 contents).map siteOfCaps

namespace RequireParser

/-- The per-site loop of `parse_file` in `require_parser.rs`.  The
`require_path` buffer (`rp`) is created once per file and mutated by
`pop`/`push` across loop iterations, so it threads through the whole
site list.  `recur` is the recursive call (`parse_file` with less fuel). -/
def parseSites (fs : FS) (recur : Str → Option (List Site)) :
    Str → List Site → Option (List Site)
  | _, [] => some []
  | rp, site :: rest =>
    let rp' := pbPush (pbPop rp) site.2.1
    if fsExists fs rp' then
      (recur rp').bind (fun sub =>
        (parseSites fs recur rp' rest).map (fun tl => site :: (sub ++ tl)))
    else
      (parseSites fs recur rp' rest).map (fun tl => site :: tl)

/-- `parse_file` in `require_parser.rs`, with explicit fuel for the
unguarded recursion. -/
def parse_file (fs : FS) : Nat → Str → Option (List Site)
  | 0, _ => none
  | fuel + 1, path =>
    (fsRead fs path).bind (fun raw =>
      parseSites fs (parse_file fs fuel) path (scanSites (remove_comments raw)))

end RequireParser

namespace Bundler

/-- The per-site loop of `parse_file` in `bundler.rs`: here `require_path`
is rebuilt from the file's own path on every iteration. -/
def parseSites (fs : FS) (recur : Str → Option (List Site)) (path : Str) :
    List Site → Option (List Site)
  | [] => some []
  | site :: rest =>
    let rp' := pbPush (pbPop path) site.2.1
    if fsExists fs rp' then
      (recur rp').bind (fun sub =>
        (parseSites fs recur path rest).map (fun tl => site :: (sub ++ tl)))
    else
      (parseSites fs recur path rest).map (fun tl => site :: tl)

/-- `parse_file` in `bundler.rs`, with explicit fuel. -/
def parse_file (fs : FS) : Nat → Str → Option (List Site)
  | 0, _ => none
  | fuel + 1, path =>
    (fsRead fs path).bind (fun raw =>
      parseSites fs (parse_file fs fuel) path (scanSites (remove_all_comments raw)))

end Bundler

/-! ## The substitution engine -/

/-- `format!("    {}", line)` applied to every line and re-joined:
the multiline re-indentation step of both `replace_requires`. -/
def indentLines (s : Str) : Str :=
  (List.intersperse ('\n' :: []) ((strLines s).map (fun l => ' ' :: ' ' :: ' ' :: ' ' :: l))).flatten

/-- The closure template of `code_processing.rs`:
`format!("(function(...)\n\t{}\nend)({});", contents, args)`. -/
def funcWrapC (contents args : Str) : Str :=
  ('(' :: 'f' :: 'u' :: 'n' :: 'c' :: 't' :: 'i' :: 'o' :: 'n' :: '(' :: '.' :: '.' :: '.' :: ')' :: '\n' :: '\t' :: [])
    ++ contents ++ ('\n' :: 'e' :: 'n' :: 'd' :: ')' :: '(' :: []) ++ args ++ (')' :: ';' :: [])

/-- The closure template of `bundler.rs`:
`format!("(function(...)\n{}\nend)({});", contents, args)` (no tab). -/
def funcWrapB (contents args : Str) : Str :=
  ('(' :: 'f' :: 'u' :: 'n' :: 'c' :: 't' :: 'i' :: 'o' :: 'n' :: '(' :: '.' :: '.' :: '.' :: ')' :: '\n' :: [])
    ++ contents ++ ('\n' :: 'e' :: 'n' :: 'd' :: ')' :: '(' :: []) ++ args ++ (')' :: ';' :: [])

namespace CodeProcessing

/-- The body of the per-require loop of `replace_requires` in
`code_processing.rs`: read the module relative to the entry file's parent
directory, convert a string-embedded match to a long bracket literal,
build the closure, splice `func_args`, re-indent a multiline match, and
replace every occurrence of the (possibly quote-stripped) match. -/
def step (fs : FS) (mainBuf : Str) (buf : Str) (site : Site) : Option Str :=
  (fsRead fs (pbPush mainBuf site.2.1)).map (fun contents =>
    let matched0 := site.1
    let p :=
      if isStringLit matched0 then
        (replaceAll buf matched0
          (('[' :: '[' :: []) ++ (matched0.drop 1).dropLast ++ (']' :: ']' :: [])),
         (matched0.drop 1).dropLast)
      else (buf, matched0)
    let repl0 := funcWrapC contents site.2.2.1
    let repl1 := if site.2.2.2 ≠ [] then repl0.dropLast ++ site.2.2.2 else repl0
    let repl2 := if p.2.contains '\n' then indentLines repl1 else repl1
    replaceAll p.1 p.2 repl2)

/-- The sequential fold of `replace_requires` over the call-site list. -/
def steps (fs : FS) (mainBuf : Str) : Str → List Site → Option Str
  | buf, [] => some buf
  | buf, site :: rest => (step fs mainBuf buf site).bind (fun b2 => steps fs mainBuf b2 rest)

/-- `replace_requires` in `code_processing.rs`: the accumulating buffer is
initialised with the comment-stripped entry text. -/
def replace_requires (fs : FS) (origin : Str) (requires : List Site) : Option Str :=
  (fsRead fs origin).bind (fun raw =>
    steps fs (pbPop origin) (RequireParser.remove_comments raw) requires)

/-- The bundling pipeline of `bundle` in `code_processing.rs` up to the
text handed to the output writer (`parse_file` then `replace_requires`);
the processing stage is external and skipped under `noprocess`. -/
def bundledText (fs : FS) (fuel : Nat) (main_path : Str) : Option Str :=
  (RequireParser.parse_file fs fuel main_path).bind (replace_requires fs main_path)

end CodeProcessing

namespace Bundler

/-- The per-require loop body of `replace_requires` in `bundler.rs`;
identical to the `code_processing.rs` one except for the closure template
(no tab before the module contents). -/
def step (fs : FS) (mainBuf : Str) (buf : Str) (site : Site) : Option Str :=
  (fsRead fs (pbPush mainBuf site.2.1)).map (fun contents =>
    let matched0 := site.1
    let p :=
      if isStringLit matched0 then
        (replaceAll buf matched0
          (('[' :: '[' :: []) ++ (matched0.drop 1).dropLast ++ (']' :: ']' :: [])),
         (matched0.drop 1).dropLast)
      else (buf, matched0)
    let repl0 := funcWrapB contents site.2.2.1
    let repl1 := if site.2.2.2 ≠ [] then repl0.dropLast ++ site.2.2.2 else repl0
    let repl2 := if p.2.contains '\n' then indentLines repl1 else repl1
    replaceAll p.1 p.2 repl2)

def steps (fs : FS) (mainBuf : Str) : Str → List Site → Option Str
  | buf, [] => some buf
  | buf, site :: rest => (step fs mainBuf buf site).bind (fun b2 => steps fs mainBuf b2 rest)

/-- `replace_requires` in `bundler.rs`: the accumulating buffer is
initialised with the raw entry text (`read_to_string`, no comment
stripping). -/
def replace_requires (fs : FS) (origin : Str) (requires : List Site) : Option Str :=
  (fsRead fs origin).bind (fun raw => steps fs (pbPop origin) raw requires)

end Bundler

namespace FileProcessing

/-- The loop of `write_in_chunks` in `file_processing.rs`, returning the
sequence of writes issued; fuel makes the unbounded `while` explicit, and
`none` means the loop has not finished within the given fuel. -/
def writeLoop {α : Type} (data : List α) (chunk_size : Nat) : Nat → Nat → Option (List (List α))
  | _, 0 => none
  | offset, fuel + 1 =>
    if offset < data.length then
      let e := min (offset + chunk_size) data.length
      (writeLoop data chunk_size (offset + chunk_size) fuel).map
        (fun rest => ((data.drop offset).take (e - offset)) :: rest)
    else
      some []

/-- `write_in_chunks`: the writes issued for `data`, starting at offset 0. -/
def write_in_chunks {α : Type} (data : List α) (chunk_size : Nat) (fuel : Nat) :
    Option (List (List α)) :=
  writeLoop data chunk_size 0 fuel

end FileProcessing

/-! ## Concrete inputs used by the evaluation theorems and witnesses -/

/-- Build a filesystem from Lean string pairs. -/
def mkFS (l : List (String × String)) : FS := l.map (fun e => (e.1.toList, e.2.toList))

/-- Entry `d/a.lua` requires `sub/b.lua` (which exists) and then `c.lua`
(where `d/c.lua` exists and itself contains a require). -/
def fsAcc : FS := mkFS
  [("d/a.lua", "require\"sub/b.lua\"\nrequire\"c.lua\""),
   ("d/sub/b.lua", "x = 1"),
   ("d/c.lua", "require\"leaf.lua\"")]

/-- The call site of `require"sub/b.lua"`. -/
def siteSubB : Site := (("require\"sub/b.lua\"").toList, ("sub/b.lua").toList, [], [])

/-- The call site of `require"c.lua"`. -/
def siteC : Site := (("require\"c.lua\"").toList, ("c.lua").toList, [], [])

/-- The call site of `require"leaf.lua"` inside `d/c.lua`. -/
def siteLeaf : Site := (("require\"leaf.lua\"").toList, ("leaf.lua").toList, [], [])

/-- A one-file tree whose entry text contains a line comment. -/
def fsCmt : FS := mkFS [("a.lua", "--c\nx")]

/-! ## C1 — resolution base of the recursive resolver -/

/-- C1: the claim says every discovered module path is resolved against the
current file's own parent directory, never against a path accumulated from
a previously resolved call site in the same file.  `parse_file` in
`require_parser.rs` violates this: its `require_path` buffer is created
once per file, and after pushing the two-component path `sub/b.lua` a
single `pop` only removes `b.lua`, so the next sibling `c.lua` is tested
at `d/sub/c.lua` instead of `d/a.lua`'s parent `d`.  Consequently the
existing `d/c.lua` is not recursed into and its inner call site is missing
from the result, while `parse_file` in `bundler.rs` (which rebuilds
`require_path` from the file's own path on every iteration) finds it. -/
theorem c1_accumulated_resolution_eval :
    RequireParser.parse_file fsAcc 4 (("d/a.lua").toList) = some [siteSubB, siteC]
  ∧ Bundler.parse_file fsAcc 4 (("d/a.lua").toList) = some [siteSubB, siteC, siteLeaf]
  ∧ fsExists fsAcc (("d/c.lua").toList) = true
  ∧ fsExists fsAcc (("d/sub/c.lua").toList) = false
  ∧ pbPush (pbPop (("d/a.lua").toList)) (("c.lua").toList) = ("d/c.lua").toList := by
  refine ⟨by decide, by decide, by decide, by decide, by decide⟩

/-! ## C2 — string-literal interiors under comment stripping -/

/-- C2: the claim says every character inside a string literal survives
comment stripping even when the literal contains comment-marker-like text.
Both strippers violate it.  In `require_parser.rs`, on `print("--")` the
comment pattern matches `"--")`, whose trimmed text is not itself a quoted
string, so the in-string guard does not fire and the text is deleted,
leaving `print(`.  In `bundler.rs`, the state machine does not understand
escaped quotes: in `"a\"--b"` it leaves the string state at the escaped
quote and then treats `--b"` as a line comment, leaving `"a\"`. -/
theorem c2_string_interior_deleted_eval :
    RequireParser.remove_comments (("print(\"--\")").toList) = ("print(").toList
  ∧ Bundler.remove_all_comments (("\"a\\\"--b\"").toList) = ("\"a\\\"").toList := by
  refine ⟨by decide, by decide⟩

/-! ## C3 — idempotence of comment stripping -/

/-- The input on which `remove_comments` is not idempotent: the first pass
matches `--a ` (trimmed to `--a`) and `---a-z`, and deleting every
occurrence of `--a` glues `-` and `-z` together into a fresh line comment
`--z` that only a second pass would remove. -/
def s3 : Str := ("--a \n---a-z").toList

/-- C3 counterexample: stripping the stripped text changes it again, so
the stripper of `require_parser.rs` is not idempotent. -/
theorem c3_counterexample :
    RequireParser.remove_comments (RequireParser.remove_comments s3)
      ≠ RequireParser.remove_comments s3 := by decide

/-! ## C4 — the two historical iterations -/

/-- C4 counterexample: on `fsAcc` the two `parse_file` implementations
return different call-site lists (the `require_parser.rs` one accumulates
path components, see `c1_accumulated_resolution_eval`), and on a
require-free entry with a comment the two `replace_requires` return
different text (`bundler.rs` starts from the raw entry text,
`code_processing.rs` from the comment-stripped text). -/
theorem c4_counterexample :
    (RequireParser.parse_file fsAcc 4 (("d/a.lua").toList)
       ≠ Bundler.parse_file fsAcc 4 (("d/a.lua").toList))
  ∧ (Bundler.replace_requires fsCmt (("a.lua").toList) []
       ≠ CodeProcessing.replace_requires fsCmt (("a.lua").toList) []) := by
  refine ⟨by decide, by decide⟩

theorem mem_of_fsRead (fs : FS) (p raw : Str) (h : fsRead fs p = some raw) :
    (p, raw) ∈ fs := by
  induction fs with
  | nil => simp [fsRead, List.lookup] at h
  | cons e rest ih =>
    simp only [fsRead, List.lookup] at h
    by_cases hpe : p == e.1
    · simp [hpe] at h
      simp only [List.mem_cons]
      left
      have : p = e.1 := eq_of_beq hpe
      cases e; simp_all
    · simp [hpe] at h
      exact List.mem_cons_of_mem _ (ih h)

theorem dropWhile_append_of_all {p : Char → Bool} (l₁ l₂ : Str)
    (h : ∀ c ∈ l₁, p c) : List.dropWhile p (l₁ ++ l₂) = List.dropWhile p l₂ := by
  induction l₁ with
  | nil => rfl
  | cons c rest ih =>
    simp only [List.cons_append, List.dropWhile_cons]
    rw [h c (by simp)]
    simp only [if_true]
    exact ih (fun x hx => h x (by simp [hx]))

/-- Pushing a non-empty separator-free component and popping it again
returns to the starting directory. -/
theorem pbPop_pbPush (d r : Str) (hsep : '/' ∉ r) :
    pbPop (pbPush d r) = d := by
  unfold pbPush pbPop
  by_cases hd : d = []
  · subst hd
    simp only [if_true]
    have : List.dropWhile (fun c => ¬ c = '/') r.reverse = [] := by
      rw [List.dropWhile_eq_nil_iff]
      intro x hx
      simp only [decide_eq_true_eq]
      intro hx'
      exact hsep (by subst hx'; exact (List.mem_reverse).mp hx)
    rw [this]; rfl
  · rw [if_neg hd]
    rw [List.reverse_append, List.reverse_cons, List.append_assoc]
    rw [show ['/'] ++ d.reverse = '/' :: d.reverse from rfl]
    rw [dropWhile_append_of_all r.reverse ('/' :: d.reverse)
      (fun c hc => by
        simp only [decide_eq_true_eq]
        intro hc'
        exact hsep (by subst hc'; exact (List.mem_reverse).mp hc))]
    simp [List.dropWhile_cons]

theorem parseSites_congr (fs : FS) (rec1 rec2 : Str → Option (List Site))
    (hrec : ∀ q, rec1 q = rec2 q) (path : Str) :
    ∀ (sites : List Site) (rp : Str), pbPop rp = pbPop path →
    (∀ site ∈ sites, site.2.1 ≠ [] ∧ '/' ∉ site.2.1) →
    RequireParser.parseSites fs rec1 rp sites = Bundler.parseSites fs rec2 path sites := by
  intro sites
  induction sites with
  | nil => intro rp _ _; rfl
  | cons site rest ih =>
    intro rp hpop hok
    have hhead := hok site (by simp)
    have hrp' : pbPush (pbPop rp) site.2.1 = pbPush (pbPop path) site.2.1 := by rw [hpop]
    have hpop' : pbPop (pbPush (pbPop rp) site.2.1) = pbPop path := by
      rw [hrp', pbPop_pbPush _ _ hhead.2]
    have htl := ih (pbPush (pbPop rp) site.2.1) hpop'
      (fun s hs => hok s (by simp [hs]))
    rw [hrp'] at htl
    simp only [RequireParser.parseSites, Bundler.parseSites, hrp', htl, hrec]

/-- C4 amended: the two iterations only conditionally implement the same
logic.  On a file tree whose contents are left unchanged by both comment
strippers and whose discovered module paths are non-empty single path
components, the two `parse_file` implementations agree for every fuel and
entry path; and the two `replace_requires` implementations agree exactly
on an empty call-site list (with any call site their closure templates
already differ by a tab; with general input the strippers and the path
threading differ, see `c4_counterexample`). -/
theorem c4_two_iterations_amended (fs : FS)
    (H1 : ∀ e ∈ fs, RequireParser.remove_comments e.2 = e.2
                  ∧ Bundler.remove_all_comments e.2 = e.2)
    (H2 : ∀ e ∈ fs, ∀ site ∈ scanSites e.2, site.2.1 ≠ [] ∧ '/' ∉ site.2.1) :
    (∀ fuel path, RequireParser.parse_file fs fuel path = Bundler.parse_file fs fuel path)
  ∧ (∀ origin, Bundler.replace_requires fs origin []
                 = CodeProcessing.replace_requires fs origin []) := by
  constructor
  · intro fuel
    induction fuel with
    | zero => intro path; rfl
    | succ n ih =>
      intro path
      simp only [RequireParser.parse_file, Bundler.parse_file]
      cases h : fsRead fs path with
      | none => rfl
      | some raw =>
        have hmem := mem_of_fsRead fs path raw h
        have h1 := H1 (path, raw) hmem
        have h2 := H2 (path, raw) hmem
        simp only at h1 h2
        simp only [Option.some_bind, h1.1, h1.2]
        exact parseSites_congr fs _ _ ih path (scanSites raw) path rfl h2
  · intro origin
    simp only [Bundler.replace_requires, CodeProcessing.replace_requires]
    cases h : fsRead fs origin with
    | none => rfl
    | some raw =>
      have h1 := H1 (origin, raw) (mem_of_fsRead fs origin raw h)
      simp only at h1
      simp only [Option.some_bind, Bundler.steps, CodeProcessing.steps, h1.1]

/-- A comment-free two-file tree with single-component module paths. -/
def fsPlain : FS := mkFS [("a.lua", "require\"b.lua\""), ("b.lua", "y = 2")]

theorem c4_two_iterations_amended_witness :
    (∀ e ∈ fsPlain, RequireParser.remove_comments e.2 = e.2
                  ∧ Bundler.remove_all_comments e.2 = e.2)
  ∧ (∀ e ∈ fsPlain, ∀ site ∈ scanSites e.2, site.2.1 ≠ [] ∧ '/' ∉ site.2.1)
  ∧ RequireParser.parse_file fsPlain 3 (("a.lua").toList)
      = Bundler.parse_file fsPlain 3 (("a.lua").toList) :=
  ⟨by decide, by decide,
   (c4_two_iterations_amended fsPlain (by decide) (by decide)).1 3 (("a.lua").toList)⟩

/-! ## Properties of `str::replace` -/

theorem replaceAllGo_skip (m r : Str) (a : Str) :
    ∀ t : Str, replaceAllGo m r a.length (a ++ t) = replaceAllGo m r 0 t := by
  induction a with
  | nil => intro t; rfl
  | cons c rest ih =>
    intro t
    simp only [List.length_cons, List.cons_append, replaceAllGo]
    exact ih t

theorem replaceAllGo_no_occ (m r : Str) :
    ∀ t : Str, (∀ p ≤ t.length, ¬ matchesAt t m p) → replaceAllGo m r 0 t = t := by
  intro t
  induction t with
  | nil => intro _; rfl
  | cons c rest ih =>
    intro h
    have h0 : ¬ (m.isPrefixOf (c :: rest) = true) := by
      have := h 0 (by simp)
      simpa [matchesAt] using this
    simp only [replaceAllGo]
    rw [if_neg (by rintro ⟨_, hpre⟩; exact h0 hpre)]
    congr 1
    exact ih (fun p hp => by
      have := h (p + 1) (by simp only [List.length_cons]; omega)
      simpa [matchesAt] using this)

theorem replaceAllGo_prefix_match (m r : Str) (hm : m ≠ []) :
    ∀ u t : Str, (∀ p < u.length, ¬ matchesAt (u ++ (m ++ t)) m p) →
    replaceAllGo m r 0 (u ++ (m ++ t)) = u ++ r ++ replaceAllGo m r 0 t := by
  intro u
  induction u with
  | nil =>
    intro t _
    match m, hm with
    | c0 :: m', _ =>
      have hpre : List.isPrefixOf (c0 :: m') (c0 :: (m' ++ t)) = true := by
        rw [List.isPrefixOf_iff_prefix]
        exact (c0 :: m').prefix_append t
      simp only [List.nil_append, List.cons_append, replaceAllGo]
      rw [if_pos ⟨by simp, hpre⟩]
      simp only [List.length_cons, Nat.add_sub_cancel, List.append_eq]
      rw [replaceAllGo_skip (c0 :: m') r m' t]
  | cons c u' ih =>
    intro t h
    have h0 : ¬ (m.isPrefixOf (c :: (u' ++ (m ++ t))) = true) := by
      have := h 0 (by simp)
      simpa [matchesAt] using this
    simp only [List.cons_append, replaceAllGo, List.append_eq]
    rw [if_neg (by rintro ⟨_, hpre⟩; exact h0 hpre)]
    rw [ih t (fun p hp => by
      have := h (p + 1) (by simp only [List.length_cons]; omega)
      simpa [matchesAt] using this)]

theorem replaceAll_two_occ (u v w m r : Str) (hm : m ≠ [])
    (hu : ∀ p < u.length, ¬ matchesAt (u ++ (m ++ (v ++ (m ++ w)))) m p)
    (hv : ∀ p < v.length, ¬ matchesAt (v ++ (m ++ w)) m p)
    (hw : ∀ p ≤ w.length, ¬ matchesAt w m p) :
    replaceAll (u ++ (m ++ (v ++ (m ++ w)))) m r = u ++ r ++ (v ++ (r ++ w)) := by
  unfold replaceAll
  rw [if_neg hm]
  rw [replaceAllGo_prefix_match m r hm u (v ++ (m ++ w)) hu]
  rw [replaceAllGo_prefix_match m r hm v w hv]
  rw [replaceAllGo_no_occ m r w hw]
  simp

theorem replaceAll_one_occ (u v m r : Str) (hm : m ≠ [])
    (hu : ∀ p < u.length, ¬ matchesAt (u ++ (m ++ v)) m p)
    (hv : ∀ p ≤ v.length, ¬ matchesAt v m p) :
    replaceAll (u ++ (m ++ v)) m r = u ++ r ++ v := by
  unfold replaceAll
  rw [if_neg hm]
  rw [replaceAllGo_prefix_match m r hm u v hu]
  rw [replaceAllGo_no_occ m r v hv]

/-! ## C6 — substitution replaces every occurrence of the matched text -/

/-- C6: when the substitution engine processes a call site, every
occurrence of its `matched_text` in the accumulating buffer is replaced by
the constructed closure, not only the occurrence originally matched:
for a buffer containing the matched text in two places (here made precise
by occurrence-freeness of the surrounding segments), both become the
closure.  Stated for `replace_requires` of `code_processing.rs` on a
single non-string-form single-line call site with no call suffix. -/
theorem c6_replace_every_occurrence (fs : FS) (origin raw u v w m rq args contents : Str)
    (hread : fsRead fs origin = some raw)
    (hstrip : RequireParser.remove_comments raw = u ++ (m ++ (v ++ (m ++ w))))
    (hmod : fsRead fs (pbPush (pbPop origin) rq) = some contents)
    (hstr : isStringLit m = false)
    (hnl : '\n' ∉ m)
    (hm : m ≠ [])
    (hu : ∀ p < u.length, ¬ matchesAt (u ++ (m ++ (v ++ (m ++ w)))) m p)
    (hv : ∀ p < v.length, ¬ matchesAt (v ++ (m ++ w)) m p)
    (hw : ∀ p ≤ w.length, ¬ matchesAt w m p) :
    CodeProcessing.replace_requires fs origin [(m, rq, args, [])]
      = some (u ++ funcWrapC contents args ++ (v ++ (funcWrapC contents args ++ w))) := by
  have hcontains : m.contains '\n' = false := by
    simpa using hnl
  unfold CodeProcessing.replace_requires
  rw [hread]
  simp only [Option.some_bind, CodeProcessing.steps, CodeProcessing.step, hmod, hstrip,
    Option.map_some, Option.some_bind, hstr, Bool.false_eq_true, if_false, ne_eq,
    not_true_eq_false, hcontains]
  simp only [Option.map_some', Option.some_bind]
  rw [replaceAll_two_occ u v w m (funcWrapC contents args) hm hu hv hw]

/-! ## C9 — string-embedded call sites become long bracket literals -/

theorem orElse_isSome_right {β : Type} (a b : Option β) (hb : b.isSome = true) :
    (a <|> b).isSome = true := by
  cases a <;> simp_all

theorem matchStar_greedy_isSome {β : Type} (p : Char → Bool) :
    ∀ (s : Str) (caps : Caps) (k : Str → Caps → Option β) (n : Nat),
    (∀ c ∈ s.take n, p c = true) → ((k (s.drop n) caps).isSome = true) →
    (matchStar p true s caps k).isSome = true := by
  intro s
  induction s with
  | nil =>
    intro caps k n _ hk
    simpa [matchStar] using hk
  | cons c rest ih =>
    intro caps k n htake hk
    match n with
    | 0 =>
      simp only [List.drop_zero] at hk
      simp only [matchStar]
      split
      · exact orElse_isSome_right _ _ hk
      · exact hk
    | n' + 1 =>
      have hc : p c = true := htake c (by simp)
      have hrest : (matchStar p true rest caps k).isSome = true :=
        ih caps k n' (fun x hx => htake x (by simp [hx])) (by simpa using hk)
      simp only [matchStar, hc, if_true]
      cases hms : matchStar p true rest caps k with
      | none => rw [hms] at hrest; simp at hrest
      | some val => simp [hms]

/-- A text of the shape quote, non-empty newline-free interior, quote is
accepted by `IN_STRING_PATTERN`. -/
theorem isStringLit_quoted (q1 q2 : Char) (mid : Str)
    (hq1 : isQuote q1 = true) (hq2 : isQuote q2 = true)
    (hmid : mid ≠ []) (hnl : ∀ c ∈ mid, nonNl c = true) :
    isStringLit (q1 :: (mid ++ (q2 :: []))) = true := by
  match mid, hmid with
  | c0 :: mid', _ =>
    have hc0 : nonNl c0 = true := hnl c0 (by simp)
    unfold isStringLit fullMatch pInString
    simp only [matchRE, List.cons_append, hq1, if_true, hc0]
    apply matchStar_greedy_isSome nonNl (mid' ++ (q2 :: [])) _ _ mid'.length
    · rw [List.take_left]
      intro x hx
      exact hnl x (by simp [hx])
    · rw [List.drop_left]
      simp only [matchRE, hq2, if_true]
      rfl

/-- C9: for a call site whose matched text is itself a quoted string
literal, `replace_requires` first rewrites that quoted span into a long
bracket literal `[[ ... ]]` and strips the outer quotes from the
replacement key, so the closure ends up delimited by `[[` and `]]` with no
quote characters at the boundary of the inlined content.  Stated for
`code_processing.rs` on a single single-line call site with no call
suffix. -/
theorem c9_string_form_bracket_conversion (fs : FS)
    (origin raw u v mid rq args contents : Str) (q1 q2 : Char)
    (hq1 : isQuote q1 = true) (hq2 : isQuote q2 = true)
    (hmid : mid ≠ []) (hnl : ∀ c ∈ mid, nonNl c = true)
    (hread : fsRead fs origin = some raw)
    (hstrip : RequireParser.remove_comments raw
                = u ++ ((q1 :: (mid ++ (q2 :: []))) ++ v))
    (hmod : fsRead fs (pbPush (pbPop origin) rq) = some contents)
    (hu : ∀ p < u.length,
            ¬ matchesAt (u ++ ((q1 :: (mid ++ (q2 :: []))) ++ v)) (q1 :: (mid ++ (q2 :: []))) p)
    (hv : ∀ p ≤ v.length, ¬ matchesAt v (q1 :: (mid ++ (q2 :: []))) p)
    (hu2 : ∀ p < (u ++ ('[' :: '[' :: [])).length,
            ¬ matchesAt ((u ++ ('[' :: '[' :: [])) ++ (mid ++ ((']' :: ']' :: []) ++ v))) mid p)
    (hv2 : ∀ p ≤ ((']' :: ']' :: []) ++ v).length,
            ¬ matchesAt ((']' :: ']' :: []) ++ v) mid p) :
    CodeProcessing.replace_requires fs origin [(q1 :: (mid ++ (q2 :: [])), rq, args, [])]
      = some ((u ++ ('[' :: '[' :: [])) ++ funcWrapC contents args
               ++ ((']' :: ']' :: []) ++ v)) := by
  have hlit : isStringLit (q1 :: (mid ++ (q2 :: []))) = true :=
    isStringLit_quoted q1 q2 mid hq1 hq2 hmid hnl
  have hkey : ((q1 :: (mid ++ (q2 :: []))).drop 1).dropLast = mid := by
    simp
  have hmidnl : mid.contains '\n' = false := by
    rcases hc : mid.contains '\n' with _ | _
    · rfl
    · exfalso
      have : '\n' ∈ mid := by simpa using hc
      have := hnl '\n' this
      simp [nonNl] at this
  unfold CodeProcessing.replace_requires
  rw [hread]
  simp only [Option.some_bind, CodeProcessing.steps, CodeProcessing.step, hmod, hstrip,
    Option.map_some', Option.some_bind, hlit, if_true, hkey, hmidnl, Bool.false_eq_true,
    if_false, ne_eq, not_true_eq_false]
  rw [replaceAll_one_occ u v (q1 :: (mid ++ (q2 :: [])))
        (('[' :: '[' :: []) ++ mid ++ (']' :: ']' :: [])) (by simp) hu hv]
  rw [show u ++ (('[' :: '[' :: []) ++ mid ++ (']' :: ']' :: [])) ++ v
        = (u ++ ('[' :: '[' :: [])) ++ (mid ++ ((']' :: ']' :: []) ++ v)) by
      simp [List.append_assoc]]
  rw [replaceAll_one_occ (u ++ ('[' :: '[' :: [])) ((']' :: ']' :: []) ++ v) mid
        (funcWrapC contents args) hmid hu2 hv2]

/-- Entry whose stripped text contains the same matched text twice. -/
def fsDouble : FS := mkFS
  [("a.lua", "require\"b.lua\" require\"b.lua\""), ("b.lua", "return 1")]

theorem c6_replace_every_occurrence_witness :
    CodeProcessing.replace_requires fsDouble (("a.lua").toList)
        [(("require\"b.lua\"").toList, ("b.lua").toList, [], [])]
      = some ([] ++ funcWrapC (("return 1").toList) []
               ++ ((' ' :: []) ++ (funcWrapC (("return 1").toList) [] ++ []))) :=
  c6_replace_every_occurrence fsDouble (("a.lua").toList)
    (("require\"b.lua\" require\"b.lua\"").toList)
    [] (' ' :: []) [] (("require\"b.lua\"").toList) (("b.lua").toList) []
    (("return 1").toList)
    (by decide) (by decide) (by decide) (by decide) (by decide) (by decide)
    (by decide) (by decide) (by decide)

/-- Entry with a double-quote-embedded require statement. -/
def fsEmbed : FS := mkFS
  [("a.lua", "x = \"require\"b.lua\"\""), ("b.lua", "return 2")]

theorem c9_string_form_bracket_conversion_witness :
    CodeProcessing.replace_requires fsEmbed (("a.lua").toList)
        [(("\"require\"b.lua\"\"").toList, ("b.lua").toList, [], [])]
      = some (((("x = ").toList) ++ ('[' :: '[' :: []) ++ funcWrapC (("return 2").toList) []
               ++ ((']' :: ']' :: []) ++ []))) := by
  have h := c9_string_form_bracket_conversion fsEmbed (("a.lua").toList)
    (("x = \"require\"b.lua\"\"").toList)
    (("x = ").toList) [] (("require\"b.lua\"").toList) (("b.lua").toList) []
    (("return 2").toList) '"' '"'
    (by decide) (by decide) (by decide) (by decide) (by decide) (by decide)
    (by decide) (by decide) (by decide) (by decide) (by decide)
  exact h

/-! ## C5 — unresolvable module paths: recorded, not recursed, fatal at
substitution time -/

namespace RequireParser

/-- The candidate paths `parse_file` in `require_parser.rs` tests with
`require_path.exists()`, with the buffer threading of that function. -/
def threadPaths (rp : Str) : List Site → List Str
  | [] => []
  | site :: rest =>
    let rp' := pbPush (pbPop rp) site.2.1
    rp' :: threadPaths rp' rest

end RequireParser

theorem parseSites_no_exists (fs : FS) (recur : Str → Option (List Site)) :
    ∀ (sites : List Site) (rp : Str),
    (∀ q ∈ RequireParser.threadPaths rp sites, fsExists fs q = false) →
    RequireParser.parseSites fs recur rp sites = some sites := by
  intro sites
  induction sites with
  | nil => intro rp _; rfl
  | cons site rest ih =>
    intro rp h
    have hhead : fsExists fs (pbPush (pbPop rp) site.2.1) = false :=
      h _ (by simp [RequireParser.threadPaths])
    simp only [RequireParser.parseSites, hhead, Bool.false_eq_true, if_false]
    rw [ih (pbPush (pbPop rp) site.2.1)
          (fun q hq => h q (by simp [RequireParser.threadPaths, hq]))]
    rfl

theorem steps_none_of_missing (fs : FS) (mainBuf : Str) :
    ∀ (reqs : List Site) (buf : Str) (site : Site), site ∈ reqs →
    fsRead fs (pbPush mainBuf site.2.1) = none →
    CodeProcessing.steps fs mainBuf buf reqs = none := by
  intro reqs
  induction reqs with
  | nil => intro _ _ hmem; simp at hmem
  | cons head rest ih =>
    intro buf site hmem hmiss
    rcases List.mem_cons.mp hmem with h | h
    · subst h
      simp only [CodeProcessing.steps, CodeProcessing.step, hmiss, Option.map_none',
        Option.none_bind]
    · simp only [CodeProcessing.steps]
      cases hstep : CodeProcessing.step fs mainBuf buf head with
      | none => rfl
      | some b2 =>
        simp only [Option.some_bind]
        exact ih b2 site h hmiss

/-- C5: a call site whose module path resolves to no existing file at scan
time is still recorded by `parse_file` but not recursed into (when none of
the threaded candidate paths exist, the result is exactly the scan list of
the file itself); and at substitution time `replace_requires` fails with
an error (`none`) for a call-site list containing a module path that does
not resolve to a file relative to the entry file's directory, rather than
leaving the original statement in the output. -/
theorem c5_unresolved_sites (fs : FS) :
    (∀ (path raw : Str) (fuel : Nat), fsRead fs path = some raw →
       (∀ q ∈ RequireParser.threadPaths path
                 (scanSites (RequireParser.remove_comments raw)),
          fsExists fs q = false) →
       RequireParser.parse_file fs (fuel + 1) path
         = some (scanSites (RequireParser.remove_comments raw)))
  ∧ (∀ (origin : Str) (reqs : List Site) (site : Site), site ∈ reqs →
       fsRead fs (pbPush (pbPop origin) site.2.1) = none →
       CodeProcessing.replace_requires fs origin reqs = none) := by
  constructor
  · intro path raw fuel hread h
    simp only [RequireParser.parse_file, hread, Option.some_bind]
    exact parseSites_no_exists fs _ _ path h
  · intro origin reqs site hmem hmiss
    unfold CodeProcessing.replace_requires
    cases h : fsRead fs origin with
    | none => rfl
    | some raw =>
      simp only [Option.some_bind]
      exact steps_none_of_missing fs (pbPop origin) reqs _ site hmem hmiss

/-- A file tree whose entry requires a module that exists nowhere. -/
def fsMissing : FS := mkFS [("a.lua", "require\"nope.lua\"")]

theorem c5_unresolved_sites_witness :
    RequireParser.parse_file fsMissing 3 (("a.lua").toList)
      = some [(("require\"nope.lua\"").toList, ("nope.lua").toList, [], [])]
  ∧ CodeProcessing.replace_requires fsMissing (("a.lua").toList)
      [(("require\"nope.lua\"").toList, ("nope.lua").toList, [], [])] = none := by
  constructor
  · have h := (c5_unresolved_sites fsMissing).1 (("a.lua").toList)
      (("require\"nope.lua\"").toList) 2 (by decide) (by decide)
    exact h.trans (by decide)
  · exact (c5_unresolved_sites fsMissing).2 (("a.lua").toList) _
      (("require\"nope.lua\"").toList, ("nope.lua").toList, [], [])
      (by simp) (by decide)

/-! ## C7 — a dependency-free entry bundles to its stripped text -/

/-- C7: when the entry file's stripped text contains no dependency
statement, the bundling pipeline (with the downstream processing stage
disabled) produces exactly the comment-stripped entry text. -/
theorem c7_no_deps_bundle (fs : FS) (main raw : Str) (fuel : Nat)
    (hread : fsRead fs main = some raw)
    (hscan : scanSites (RequireParser.remove_comments raw) = []) :
    CodeProcessing.bundledText fs (fuel + 1) main
      = some (RequireParser.remove_comments raw) := by
  unfold CodeProcessing.bundledText
  simp only [RequireParser.parse_file, hread, Option.some_bind, hscan]
  simp only [RequireParser.parseSites, Option.some_bind]
  unfold CodeProcessing.replace_requires
  simp only [hread, Option.some_bind, CodeProcessing.steps]

/-- One file with a comment and no requires. -/
def fsSolo : FS := mkFS [("t.lua", "--hey\nx = 1")]

theorem c7_no_deps_bundle_witness :
    CodeProcessing.bundledText fsSolo 3 (("t.lua").toList) = some (("\nx = 1").toList) := by
  have h := c7_no_deps_bundle fsSolo (("t.lua").toList) (("--hey\nx = 1").toList) 2
    (by decide) (by decide)
  exact h.trans (by decide)

/-! ## C10 — chunked writing -/

theorem writeLoop_terminates {α : Type} (data : List α) (chunk : Nat) (h1 : 1 ≤ chunk) :
    ∀ (fuel offset : Nat), data.length - offset < fuel →
    ∃ out, FileProcessing.writeLoop data chunk offset fuel = some out
      ∧ (∀ c ∈ out, c.length ≤ chunk) ∧ out.flatten = data.drop offset := by
  intro fuel
  induction fuel with
  | zero => intro offset h; omega
  | succ f ih =>
    intro offset hfuel
    by_cases hoff : offset < data.length
    · obtain ⟨out, hout, hbound, hflat⟩ := ih (offset + chunk) (by omega)
      refine ⟨(data.drop offset).take (min (offset + chunk) data.length - offset) :: out, ?_, ?_, ?_⟩
      · simp only [FileProcessing.writeLoop, hoff, if_true, hout, Option.map_some']
      · intro c hc
        rcases List.mem_cons.mp hc with h | h
        · subst h
          simp only [List.length_take, List.length_drop]
          omega
        · exact hbound c h
      · simp only [List.flatten_cons, hflat]
        have hdd : data.drop (offset + chunk)
            = List.drop (min (offset + chunk) data.length - offset) (data.drop offset) := by
          rw [List.drop_drop]
          by_cases h2 : offset + chunk ≤ data.length
          · congr 1
            omega
          · have e1 : data.drop (offset + chunk) = [] :=
              List.drop_eq_nil_of_le (by omega)
            rw [e1]
            exact (List.drop_eq_nil_of_le (by omega)).symm
        rw [hdd]
        exact List.take_append_drop _ _
    · refine ⟨[], ?_, by simp, ?_⟩
      · simp only [FileProcessing.writeLoop, hoff, if_false]
      · rw [List.drop_eq_nil_of_le (by omega)]
        rfl

theorem writeLoop_zero_chunk {α : Type} (data : List α) (hd : data ≠ []) :
    ∀ fuel, FileProcessing.writeLoop data 0 0 fuel = none := by
  intro fuel
  induction fuel with
  | zero => rfl
  | succ f ih =>
    have hlen : 0 < data.length := List.length_pos.mpr hd
    simp only [FileProcessing.writeLoop, hlen, if_true, Nat.add_zero, ih, Option.map_none']

/-- C10: for chunk size at least one, `write_in_chunks` terminates within
`data.length + 1` loop iterations, every individual write has at most
`chunk_size` elements, and the writes concatenate in order to exactly
`data`; for chunk size zero and non-empty data the loop never finishes,
whatever the fuel. -/
theorem c10_write_in_chunks {α : Type} (data : List α) (chunk : Nat) (h1 : 1 ≤ chunk) :
    (∃ out, FileProcessing.write_in_chunks data chunk (data.length + 1) = some out
      ∧ (∀ c ∈ out, c.length ≤ chunk) ∧ out.flatten = data)
  ∧ (data ≠ [] → ∀ fuel, FileProcessing.write_in_chunks data 0 fuel = none) := by
  constructor
  · obtain ⟨out, hout, hb, hf⟩ :=
      writeLoop_terminates data chunk h1 (data.length + 1) 0 (by omega)
    exact ⟨out, hout, hb, by simpa using hf⟩
  · intro hd fuel
    exact writeLoop_zero_chunk data hd fuel

theorem c10_write_in_chunks_witness :
    (∃ out, FileProcessing.write_in_chunks ([0, 1, 2, 3, 4] : List Nat) 2 6 = some out
      ∧ (∀ c ∈ out, c.length ≤ 2) ∧ out.flatten = [0, 1, 2, 3, 4])
  ∧ (([0, 1, 2, 3, 4] : List Nat) ≠ [] →
      ∀ fuel, FileProcessing.write_in_chunks ([0, 1, 2, 3, 4] : List Nat) 0 fuel = none) :=
  c10_write_in_chunks [0, 1, 2, 3, 4] 2 (by omega)

/-! ## C8 — the two recognition patterns never match at the same start

The backtracking matcher is related to a declarative consumption relation:
`Consumes re s s'` holds when `re` can match a prefix of `s` leaving the
suffix `s'`. -/

inductive Consumes : RE → Str → Str → Prop where
  | rchar (p : Char → Bool) (c : Char) (rest : Str) (hc : p c = true) :
      Consumes (.rchar p) (c :: rest) rest
  | rlit (l rest : Str) : Consumes (.rlit l) (l ++ rest) rest
  | rstar (g : Bool) (p : Char → Bool) (pre post : Str)
      (h : ∀ c ∈ pre, p c = true) : Consumes (.rstar g p) (pre ++ post) post
  | roptNone (g : Bool) (r : RE) (s : Str) : Consumes (.ropt g r) s s
  | roptSome (g : Bool) (r : RE) (s s' : Str) (h : Consumes r s s') :
      Consumes (.ropt g r) s s'
  | rcat (a b : RE) (s s1 s2 : Str) (ha : Consumes a s s1) (hb : Consumes b s1 s2) :
      Consumes (.rcat a b) s s2
  | raltL (a b : RE) (s s' : Str) (h : Consumes a s s') : Consumes (.ralt a b) s s'
  | raltR (a b : RE) (s s' : Str) (h : Consumes b s s') : Consumes (.ralt a b) s s'
  | rgroup (i : Nat) (r : RE) (s s' : Str) (h : Consumes r s s') :
      Consumes (.rgroup i r) s s'

theorem orElse_eq_some {β : Type} (a b : Option β) (x : β) (h : (a <|> b) = some x) :
    a = some x ∨ b = some x := by
  cases a <;> simp_all

theorem matchStar_sound {β : Type} (p : Char → Bool) (g : Bool) :
    ∀ (s : Str) (caps : Caps) (k : Str → Caps → Option β) (x : β),
    matchStar p g s caps k = some x →
    ∃ s', Consumes (.rstar g p) s s' ∧ k s' caps = some x := by
  intro s
  induction s with
  | nil =>
    intro caps k x h
    refine ⟨[], ?_, by simpa [matchStar] using h⟩
    exact Consumes.rstar g p [] [] (by simp)
  | cons c rest ih =>
    intro caps k x h
    simp only [matchStar] at h
    by_cases hc : p c = true
    · rw [if_pos hc] at h
      have hcase : matchStar p g rest caps k = some x ∨ k (c :: rest) caps = some x := by
        cases g with
        | true => simpa using orElse_eq_some _ _ _ h
        | false =>
          rcases orElse_eq_some _ _ _ (by simpa using h) with h' | h'
          · exact Or.inr h'
          · exact Or.inl h'
      rcases hcase with h' | h'
      · obtain ⟨s', hcons, hk⟩ := ih caps k x h'
        refine ⟨s', ?_, hk⟩
        cases hcons
        rename_i pre hall
        have hext : ∀ y ∈ c :: pre, p y = true := by
          intro y hy
          rcases List.mem_cons.mp hy with h | h
          · subst h; exact hc
          · exact hall y h
        exact Consumes.rstar g p (c :: pre) _ hext
      · refine ⟨c :: rest, ?_, h'⟩
        exact Consumes.rstar g p [] (c :: rest) (by simp)
    · rw [if_neg hc] at h
      refine ⟨c :: rest, ?_, h⟩
      exact Consumes.rstar g p [] (c :: rest) (by simp)

theorem matchRE_sound {β : Type} :
    ∀ (re : RE) (s : Str) (caps : Caps) (k : Str → Caps → Option β) (x : β),
    matchRE re s caps k = some x →
    ∃ s' caps', Consumes re s s' ∧ k s' caps' = some x := by
  intro re
  induction re with
  | rchar p =>
    intro s caps k x h
    match s with
    | [] => simp [matchRE] at h
    | c :: rest =>
      simp only [matchRE] at h
      by_cases hc : p c = true
      · rw [if_pos hc] at h
        exact ⟨rest, caps, Consumes.rchar p c rest hc, h⟩
      · rw [if_neg hc] at h; simp at h
  | rlit l =>
    intro s caps k x h
    simp only [matchRE] at h
    by_cases hp : l.isPrefixOf s = true
    · rw [if_pos hp] at h
      obtain ⟨t, ht⟩ := (List.isPrefixOf_iff_prefix.mp hp)
      refine ⟨s.drop l.length, caps, ?_, h⟩
      have : s = l ++ t := ht.symm
      subst this
      have hd : (l ++ t).drop l.length = t := List.drop_left l t
      rw [hd]
      exact Consumes.rlit l t
    · rw [if_neg hp] at h; simp at h
  | rstar g p =>
    intro s caps k x h
    obtain ⟨s', hc, hk⟩ := matchStar_sound p g s caps k x (by simpa [matchRE] using h)
    exact ⟨s', caps, hc, hk⟩
  | ropt g r ih =>
    intro s caps k x h
    simp only [matchRE] at h
    have hcase : matchRE r s caps k = some x ∨ k s caps = some x := by
      cases g with
      | true => simpa using orElse_eq_some _ _ _ (by simpa using h)
      | false =>
        rcases orElse_eq_some _ _ _ (by simpa using h) with h' | h'
        · exact Or.inr h'
        · exact Or.inl h'
    rcases hcase with h' | h'
    · obtain ⟨s', caps', hc, hk⟩ := ih s caps k x h'
      exact ⟨s', caps', Consumes.roptSome g r s s' hc, hk⟩
    · exact ⟨s, caps, Consumes.roptNone g r s, h'⟩
  | rcat a b iha ihb =>
    intro s caps k x h
    simp only [matchRE] at h
    obtain ⟨s1, caps1, hca, hk1⟩ := iha s caps _ x h
    obtain ⟨s2, caps2, hcb, hk2⟩ := ihb s1 caps1 k x hk1
    exact ⟨s2, caps2, Consumes.rcat a b s s1 s2 hca hcb, hk2⟩
  | ralt a b iha ihb =>
    intro s caps k x h
    rcases orElse_eq_some _ _ _ (by simpa [matchRE] using h) with h' | h'
    · obtain ⟨s', caps', hc, hk⟩ := iha s caps k x h'
      exact ⟨s', caps', Consumes.raltL a b s s' hc, hk⟩
    · obtain ⟨s', caps', hc, hk⟩ := ihb s caps k x h'
      exact ⟨s', caps', Consumes.raltR a b s s' hc, hk⟩
  | rgroup i r ih =>
    intro s caps k x h
    simp only [matchRE] at h
    obtain ⟨s', caps', hc, hk⟩ := ih s caps _ x h
    exact ⟨s', _, Consumes.rgroup i r s s' hc, hk⟩


/-- The word `require`. -/
def reqWord : Str := 'r' :: 'e' :: 'q' :: 'u' :: 'i' :: 'r' :: 'e' :: []

/-- Any successful match of the first pattern decomposes as an optional
quote, the word `require`, a whitespace run, and then an opening
parenthesis. -/
theorem consumes_pReq1_shape (t a : Str) (h : Consumes pReq1 t a) :
    ∃ u pre rest, (t = reqWord ++ u ∨ ∃ q, isQuote q = true ∧ t = q :: (reqWord ++ u))
      ∧ u = pre ++ ('(' :: rest)
      ∧ (∀ c ∈ pre, isWs c = true) := by
  unfold pReq1 at h
  cases h; rename_i s1 hq hb
  cases hb; rename_i s2 hlit hc
  cases hlit
  cases hc; rename_i s3 hws hd
  cases hd; rename_i s4 hpar he
  cases hpar; rename_i c hcpar
  cases hws; rename_i pre hall
  have hcc : c = '(' := of_decide_eq_true hcpar
  subst hcc
  cases hq with
  | roptNone =>
    exact ⟨pre ++ ('(' :: s4), pre, s4, Or.inl rfl, rfl, hall⟩
  | roptSome _ _ _ _ hqc =>
    cases hqc; rename_i q hq'
    exact ⟨pre ++ ('(' :: s4), pre, s4, Or.inr ⟨q, hq', rfl⟩, rfl, hall⟩

/-- Any successful match of the second pattern decomposes as an optional
quote, the word `require`, a whitespace run, and then a backslash or a
quote character. -/
theorem consumes_pReq2_shape (t a : Str) (h : Consumes pReq2 t a) :
    ∃ u pre y rest, (t = reqWord ++ u ∨ ∃ q, isQuote q = true ∧ t = q :: (reqWord ++ u))
      ∧ u = pre ++ (y :: rest)
      ∧ (∀ c ∈ pre, isWs c = true)
      ∧ (y = '\\' ∨ isQuote y = true) := by
  unfold pReq2 at h
  cases h; rename_i s1 hq hb
  cases hb; rename_i s2 hlit hc
  cases hlit
  cases hc; rename_i s3 hws hd
  cases hd; rename_i s4 hbs he
  cases he; rename_i s5 hqchar hf
  cases hqchar; rename_i q2 hq2
  cases hbs; rename_i bsPre hbsall
  cases hws; rename_i wsPre hwsall
  have hcore : ∃ pre y rest, (wsPre ++ (bsPre ++ (q2 :: s5)) : Str) = pre ++ (y :: rest)
      ∧ (∀ c ∈ pre, isWs c = true) ∧ (y = '\\' ∨ isQuote y = true) := by
    cases bsPre with
    | nil => exact ⟨wsPre, q2, s5, by simp, hwsall, Or.inr hq2⟩
    | cons b bs' =>
      have hb' : b = '\\' := of_decide_eq_true (hbsall b (by simp))
      exact ⟨wsPre, b, bs' ++ (q2 :: s5), by simp, hwsall, Or.inl hb'⟩
  obtain ⟨pre, y, rest, heq, hpre, hy⟩ := hcore
  cases hq with
  | roptNone =>
    exact ⟨wsPre ++ (bsPre ++ (q2 :: s5)), pre, y, rest, Or.inl rfl, heq, hpre, hy⟩
  | roptSome _ _ _ _ hqc =>
    cases hqc; rename_i q hq'
    exact ⟨wsPre ++ (bsPre ++ (q2 :: s5)), pre, y, rest, Or.inr ⟨q, hq', rfl⟩, heq, hpre, hy⟩

theorem ws_split_head_eq :
    ∀ (pre1 : Str) (pre2 r1 r2 : Str) (x y : Char),
    (∀ c ∈ pre1, isWs c = true) → (∀ c ∈ pre2, isWs c = true) →
    isWs x = false → isWs y = false →
    pre1 ++ (x :: r1) = pre2 ++ (y :: r2) → x = y := by
  intro pre1
  induction pre1 with
  | nil =>
    intro pre2 r1 r2 x y _ h2 hx _ heq
    cases pre2 with
    | nil =>
      have := congrArg List.head? heq
      simpa using this
    | cons p ps =>
      exfalso
      have hxp : x = p := by simpa using congrArg List.head? heq
      have := h2 p (by simp)
      rw [← hxp] at this
      rw [this] at hx
      simp at hx
  | cons p ps ih =>
    intro pre2 r1 r2 x y h1 h2 hx hy heq
    cases pre2 with
    | nil =>
      exfalso
      have hpy : p = y := by simpa using congrArg List.head? heq
      have := h1 p (by simp)
      rw [hpy] at this
      rw [this] at hy
      simp at hy
    | cons q qs =>
      have htl : ps ++ (x :: r1) = qs ++ (y :: r2) := by
        simpa using congrArg List.tail heq
      exact ih qs r1 r2 x y (fun c hc => h1 c (by simp [hc]))
        (fun c hc => h2 c (by simp [hc])) hx hy htl

theorem req_shape_unique (t u u' : Str)
    (h1 : t = reqWord ++ u ∨ ∃ q, isQuote q = true ∧ t = q :: (reqWord ++ u))
    (h2 : t = reqWord ++ u' ∨ ∃ q, isQuote q = true ∧ t = q :: (reqWord ++ u')) :
    u = u' := by
  rcases h1 with h1 | ⟨q, hq, h1⟩ <;> rcases h2 with h2 | ⟨q', hq', h2⟩
  · rw [h1] at h2
    exact List.append_cancel_left h2
  · exfalso
    rw [h1] at h2
    have hhd : ('r' : Char) = q' := by simpa [reqWord] using congrArg List.head? h2
    rw [← hhd] at hq'
    have := of_decide_eq_true hq'
    rcases this with h | h <;> simp at h
  · exfalso
    rw [h1] at h2
    have hhd : (q : Char) = 'r' := by simpa [reqWord] using congrArg List.head? h2
    rw [hhd] at hq
    have := of_decide_eq_true hq
    rcases this with h | h <;> simp at h
  · rw [h1] at h2
    have := List.cons.injEq q (reqWord ++ u) q' (reqWord ++ u') ▸ h2
    have htl : reqWord ++ u = reqWord ++ u' := by
      simpa using congrArg List.tail h2
    exact List.append_cancel_left htl

/-- The two recognition patterns can never both match starting at the same
text: the first demands `(` after `require` and the whitespace run, the
second a backslash or quote there. -/
theorem pReq_no_common_match (t a1 a2 : Str)
    (h1 : Consumes pReq1 t a1) (h2 : Consumes pReq2 t a2) : False := by
  obtain ⟨u, pre, rest, hsh, hu, hpre⟩ := consumes_pReq1_shape t a1 h1
  obtain ⟨u', pre', y, rest', hsh', hu', hpre', hy⟩ := consumes_pReq2_shape t a2 h2
  have huu : u = u' := req_shape_unique t u u' hsh hsh'
  rw [← huu] at hu'
  have hyws : isWs y = false := by
    rcases hy with h | h
    · subst h; decide
    · rcases of_decide_eq_true h with h' | h' <;> (subst h'; decide)
  have hxy : ('(' : Char) = y :=
    ws_split_head_eq pre pre' rest rest' '(' y hpre hpre' (by decide) hyws
      (hu ▸ hu')
  rcases hy with h | h
  · rw [← hxy] at h; simp at h
  · rw [← hxy] at h
    rcases of_decide_eq_true h with h' | h' <;> simp at h'

theorem matchTop_consumes (re : RE) (t : Str) (lc : Nat × Caps)
    (h : matchTop re t = some lc) : ∃ s', Consumes re t s' := by
  obtain ⟨s', caps', hc, _⟩ := matchRE_sound re t []
    (fun s' caps => some (t.length - s'.length, caps)) lc h
  exact ⟨s', hc⟩

theorem findIterGo_mem (re : RE) :
    ∀ (fuel : Nat) (s : Str) (p0 : Nat) (e : Nat × Str × Caps),
    e ∈ findIterGo re fuel s p0 →
    ∃ d, e.1 = p0 + d ∧ ∃ lc, matchTop re (s.drop d) = some lc := by
  intro fuel
  induction fuel with
  | zero => intro s p0 e h; simp [findIterGo] at h
  | succ f ih =>
    intro s p0 e h
    simp only [findIterGo] at h
    cases hm : matchTop re s with
    | some lc =>
      rw [hm] at h
      rcases List.mem_cons.mp h with h | h
      · exact ⟨0, by simp [h], lc, by simpa using hm⟩
      · by_cases hlen : lc.1 = 0
        · rw [if_pos (by simp [hlen])] at h
          cases s with
          | nil => simp at h
          | cons c rest =>
            obtain ⟨d, hd, lc', hm'⟩ := ih rest (p0 + 1) e h
            exact ⟨d + 1, by omega, lc', by simpa using hm'⟩
        · rw [if_neg (by simpa using hlen)] at h
          obtain ⟨d, hd, lc', hm'⟩ := ih (s.drop lc.1) (p0 + lc.1) e h
          refine ⟨lc.1 + d, by omega, lc', ?_⟩
          rw [List.drop_drop] at hm'
          exact hm'
    | none =>
      rw [hm] at h
      cases s with
      | nil => simp at h
      | cons c rest =>
        obtain ⟨d, hd, lc', hm'⟩ := ih rest (p0 + 1) e h
        exact ⟨d + 1, by omega, lc', by simpa using hm'⟩

/-- C8: a text span already matched by the first recognition pattern
(call-style with optional call suffix) is never matched again by the
second (bare-string-style) in the same scan of one buffer: the two
pattern passes of `parse_file` never even report matches starting at the
same position, so the scanner never produces two call sites for the
identical span. -/
theorem c8_no_double_match (contents : Str) (p : Nat) (f1 : Str) (c1 : Caps)
    (h1 : (p, f1, c1) ∈ findIter pReq1 contents) :
    ∀ (f2 : Str) (c2 : Caps), (p, f2, c2) ∉ findIter pReq2 contents := by
  intro f2 c2 h2
  obtain ⟨d1, hp1, lc1, hm1⟩ := findIterGo_mem pReq1 _ contents 0 _ h1
  obtain ⟨d2, hp2, lc2, hm2⟩ := findIterGo_mem pReq2 _ contents 0 _ h2
  simp only at hp1 hp2
  have hdd : d1 = d2 := by omega
  subst hdd
  obtain ⟨s1, hc1⟩ := matchTop_consumes pReq1 _ lc1 hm1
  obtain ⟨s2, hc2⟩ := matchTop_consumes pReq2 _ lc2 hm2
  exact pReq_no_common_match _ s1 s2 hc1 hc2

theorem c8_no_double_match_witness :
    ((0 : Nat), ("require(\"a\") ").toList, ([(1, ('a' :: []))] : Caps))
        ∈ findIter pReq1 (("require(\"a\") require\"b\"").toList)
  ∧ ∀ (f2 : Str) (c2 : Caps),
      ((0 : Nat), f2, c2) ∉ findIter pReq2 (("require(\"a\") require\"b\"").toList) :=
  ⟨by decide,
   fun f2 c2 => c8_no_double_match (("require(\"a\") require\"b\"").toList) 0
     (("require(\"a\") ").toList) ([(1, ('a' :: []))] : Caps) (by decide) f2 c2⟩

/-! ## C3 amended — idempotence of the state-machine stripper

`racGo` is analysed through one unfolding lemma per reachable branch.
The state letters: `D` default, `S` in a string, `L` in a line comment,
`M` in a block comment. -/

namespace Bundler

theorem racD_quote (c : Char) (rest : Str) (h : c = '"' ∨ c = '\'') :
    racGo false false false (c :: rest) = c :: racGo true false false rest := by
  simp only [racGo, Bool.false_eq_true, if_false]
  rw [if_pos h]

theorem racD_dashL (rest : Str) (h1 : rest.headD (Char.ofNat 0) = '-') :
    racGo false false false ('-' :: rest) = racGo false false true rest := by
  simp only [racGo, Bool.false_eq_true, if_false, if_true]
  rw [if_pos h1, if_neg (by decide)]

theorem racD_dashM (rest : Str) (h1 : ¬ rest.headD (Char.ofNat 0) = '-')
    (h2 : rest.headD (Char.ofNat 0) = '[' ∧ (rest.drop 1).headD (Char.ofNat 0) = '[') :
    racGo false false false ('-' :: rest) = racGo false true false rest := by
  simp only [racGo, Bool.false_eq_true, if_false, if_true]
  rw [if_neg h1, if_pos h2, if_neg (by decide)]

theorem racD_dashP (rest : Str) (h1 : ¬ rest.headD (Char.ofNat 0) = '-')
    (h2 : ¬ (rest.headD (Char.ofNat 0) = '[' ∧ (rest.drop 1).headD (Char.ofNat 0) = '[')) :
    racGo false false false ('-' :: rest) = '-' :: racGo false false false rest := by
  simp only [racGo, Bool.false_eq_true, if_false, if_true]
  rw [if_neg h1, if_neg h2, if_neg (by decide)]

theorem racD_other (c : Char) (rest : Str) (hq : ¬ (c = '"' ∨ c = '\''))
    (hd : ¬ c = '-') :
    racGo false false false (c :: rest) = c :: racGo false false false rest := by
  simp only [racGo, Bool.false_eq_true, if_false]
  rw [if_neg hq, if_neg hd]

theorem racS_quote (c : Char) (rest : Str) (h : c = '"' ∨ c = '\'') :
    racGo true false false (c :: rest) = c :: racGo false false false rest := by
  simp only [racGo, if_true]
  simp [h]

theorem racS_other (c : Char) (rest : Str) (h : ¬ (c = '"' ∨ c = '\'')) :
    racGo true false false (c :: rest) = c :: racGo true false false rest := by
  simp only [racGo, if_true]
  simp [h]

theorem racL_nl (rest : Str) :
    racGo false false true ('\n' :: rest) = '\n' :: racGo false false false rest := by
  simp [racGo]

theorem racL_other (c : Char) (rest : Str) (h : ¬ c = '\n') :
    racGo false false true (c :: rest) = racGo false false true rest := by
  simp only [racGo, Bool.false_eq_true, if_false, if_true]
  rw [if_neg h]

theorem racM_exit (rest : Str) (h : rest.headD (Char.ofNat 0) = ']') :
    racGo false true false (']' :: rest) = ']' :: racGo false false false rest := by
  simp only [racGo, Bool.false_eq_true, if_false, if_true]
  rw [if_neg (by simp [List.headD_eq_head?_getD] at h; simp [h])]

theorem racM_stay (c : Char) (rest : Str)
    (h : ¬ (c = ']' ∧ rest.headD (Char.ofNat 0) = ']')) :
    racGo false true false (c :: rest) = racGo false true false rest := by
  simp only [racGo, Bool.false_eq_true, if_false, if_true]
  rw [if_pos h]

end Bundler

namespace Bundler

theorem racD_cons_of_ne_dash (c : Char) (rest : Str) (hd : ¬ c = '-') :
    ∃ t, racGo false false false (c :: rest) = c :: t := by
  by_cases hq : c = '"' ∨ c = '\''
  · exact ⟨racGo true false false rest, racD_quote c rest hq⟩
  · exact ⟨racGo false false false rest, racD_other c rest hq hd⟩

theorem racD_headD (s : Str) (h : ¬ s.headD (Char.ofNat 0) = '-') :
    (racGo false false false s).headD (Char.ofNat 0) = s.headD (Char.ofNat 0) := by
  cases s with
  | nil => rfl
  | cons c rest =>
    obtain ⟨t, ht⟩ := racD_cons_of_ne_dash c rest (by simpa using h)
    rw [ht]
    rfl

theorem racL_head (s : Str) :
    racGo false false true s = []
      ∨ ∃ t, racGo false false true s = '\n' :: t := by
  induction s with
  | nil => exact Or.inl rfl
  | cons c rest ih =>
    by_cases hn : c = '\n'
    · subst hn
      exact Or.inr ⟨racGo false false false rest, racL_nl rest⟩
    · rw [racL_other c rest hn]
      exact ih

theorem racM_head (s : Str) :
    racGo false true false s = []
      ∨ ∃ t, racGo false true false s = ']' :: t := by
  induction s with
  | nil => exact Or.inl rfl
  | cons c rest ih =>
    by_cases he : c = ']' ∧ rest.headD (Char.ofNat 0) = ']'
    · obtain ⟨hc, hr⟩ := he
      subst hc
      exact Or.inr ⟨racGo false false false rest, racM_exit rest hr⟩
    · rw [racM_stay c rest he]
      exact ih

theorem racD_head_ne_lbracket (s : Str) (h : ¬ s.headD (Char.ofNat 0) = '[') :
    ¬ (racGo false false false s).headD (Char.ofNat 0) = '[' := by
  cases s with
  | nil => simp only [racGo]; exact h
  | cons c rest =>
    by_cases hd : c = '-'
    · subst hd
      by_cases h1 : rest.headD (Char.ofNat 0) = '-'
      · rw [racD_dashL rest h1]
        rcases racL_head rest with h' | ⟨t, h'⟩ <;> simp [h']
      · by_cases h2 : rest.headD (Char.ofNat 0) = '['
            ∧ (rest.drop 1).headD (Char.ofNat 0) = '['
        · rw [racD_dashM rest h1 h2]
          rcases racM_head rest with h' | ⟨t, h'⟩ <;> simp [h']
        · rw [racD_dashP rest h1 h2]
          simp
    · obtain ⟨t, ht⟩ := racD_cons_of_ne_dash c rest hd
      rw [ht]
      simpa using h

end Bundler

namespace Bundler

/-- Simultaneous induction: re-running the machine from the default state
over the output produced from the default, line-comment, or block-comment
state (or from the string state over string-state output) reproduces that
output. -/
theorem racIdem_aux : ∀ n : Nat, ∀ s : Str, s.length ≤ n →
    (racGo false false false (racGo false false false s) = racGo false false false s)
  ∧ (racGo true false false (racGo true false false s) = racGo true false false s)
  ∧ (racGo false false false (racGo false false true s) = racGo false false true s)
  ∧ (racGo false false false (racGo false true false s) = racGo false true false s) := by
  intro n
  induction n with
  | zero =>
    intro s hs
    have hnil : s = [] := List.eq_nil_of_length_eq_zero (by omega)
    subst hnil
    exact ⟨rfl, rfl, rfl, rfl⟩
  | succ n ih =>
    intro s hs
    match s with
    | [] => exact ⟨rfl, rfl, rfl, rfl⟩
    | c :: rest =>
      have hlen : rest.length ≤ n := by
        simp only [List.length_cons] at hs; omega
      refine ⟨?_, ?_, ?_, ?_⟩
      · -- default state
        by_cases hq : c = '"' ∨ c = '\''
        · rw [racD_quote c rest hq, racD_quote c _ hq, (ih rest hlen).2.1]
        · by_cases hd : c = '-'
          · subst hd
            by_cases h1 : rest.headD (Char.ofNat 0) = '-'
            · rw [racD_dashL rest h1]
              exact (ih rest hlen).2.2.1
            · by_cases h2 : rest.headD (Char.ofNat 0) = '['
                  ∧ (rest.drop 1).headD (Char.ofNat 0) = '['
              · rw [racD_dashM rest h1 h2]
                exact (ih rest hlen).2.2.2
              · rw [racD_dashP rest h1 h2]
                have hc1 : ¬ (racGo false false false rest).headD (Char.ofNat 0) = '-' := by
                  rw [racD_headD rest h1]
                  exact h1
                have hc2 : ¬ ((racGo false false false rest).headD (Char.ofNat 0) = '['
                    ∧ ((racGo false false false rest).drop 1).headD (Char.ofNat 0) = '[') := by
                  by_cases hbr : rest.headD (Char.ofNat 0) = '['
                  · rintro ⟨_, hb2⟩
                    match rest, hbr with
                    | r0 :: r', hbr =>
                      have hr0 : r0 = '[' := by simpa using hbr
                      subst hr0
                      have hnext : ¬ r'.headD (Char.ofNat 0) = '[' := by
                        intro hx
                        exact h2 ⟨by simp, by simpa using hx⟩
                      rw [racD_other '[' r' (by decide) (by decide)] at hb2
                      simp only [List.drop_one, List.tail_cons] at hb2
                      exact racD_head_ne_lbracket r' hnext hb2
                  · rintro ⟨hb1, _⟩
                    rw [racD_headD rest h1] at hb1
                    exact hbr hb1
                rw [racD_dashP _ hc1 hc2, (ih rest hlen).1]
          · rw [racD_other c rest hq hd, racD_other c _ hq hd, (ih rest hlen).1]
      · -- string state
        by_cases hq : c = '"' ∨ c = '\''
        · rw [racS_quote c rest hq, racS_quote c _ hq, (ih rest hlen).1]
        · rw [racS_other c rest hq, racS_other c _ hq, (ih rest hlen).2.1]
      · -- line-comment state
        by_cases hn : c = '\n'
        · subst hn
          rw [racL_nl rest, racD_other '\n' _ (by decide) (by decide), (ih rest hlen).1]
        · rw [racL_other c rest hn]
          exact (ih rest hlen).2.2.1
      · -- block-comment state
        by_cases he : c = ']' ∧ rest.headD (Char.ofNat 0) = ']'
        · obtain ⟨hc, hr⟩ := he
          subst hc
          match rest, hr with
          | r0 :: r2, hr =>
            have hr0 : r0 = ']' := by simpa using hr
            subst hr0
            have hlen2 : r2.length ≤ n := by
              simp only [List.length_cons] at hs; omega
            rw [racM_exit (']' :: r2) (by simp)]
            rw [racD_other ']' r2 (by decide) (by decide)]
            rw [racD_other ']' _ (by decide) (by decide)]
            rw [racD_other ']' _ (by decide) (by decide)]
            rw [(ih r2 hlen2).1]
        · rw [racM_stay c rest he]
          exact (ih rest hlen).2.2.2

/-- `remove_all_comments` is idempotent. -/
theorem remove_all_comments_idem (s : Str) :
    remove_all_comments (remove_all_comments s) = remove_all_comments s :=
  (racIdem_aux s.length s (by omega)).1

end Bundler

/-- C3 amended: comment stripping is idempotent for the state-machine
stripper of `bundler.rs`; the regex-based stripper of `require_parser.rs`
is not idempotent (`c3_counterexample`), but it does return its input
unchanged whenever the comment pattern finds no match in it — in
particular on already-comment-free text, which is the guarantee the
specification states. -/
theorem c3_stripper_idempotence_amended (s : Str) :
    Bundler.remove_all_comments (Bundler.remove_all_comments s)
      = Bundler.remove_all_comments s
  ∧ (findIter pComment s = [] → RequireParser.remove_comments s = s) := by
  constructor
  · exact Bundler.remove_all_comments_idem s
  · intro h
    unfold RequireParser.remove_comments
    rw [h]
    rfl

theorem c3_stripper_idempotence_amended_witness :
    (Bundler.remove_all_comments (Bundler.remove_all_comments (("x = \"-- a\"").toList))
       = Bundler.remove_all_comments (("x = \"-- a\"").toList))
  ∧ findIter pComment (("x = 1").toList) = []
  ∧ RequireParser.remove_comments (("x = 1").toList) = ("x = 1").toList :=
  ⟨(c3_stripper_idempotence_amended (("x = \"-- a\"").toList)).1,
   by decide,
   (c3_stripper_idempotence_amended (("x = 1").toList)).2 (by decide)⟩
